import Mathlib

/-!
Verification development for the `rsk_fsm` hierarchical-FSM compiler core
(`src/rsk_fsm/build.py`).  Python strings are modelled as lists of
characters, Python `dict` as insertion-ordered association lists, Python
`set` as insertion-ordered duplicate-free lists, and raised exceptions as
`none` (`Option`-valued operations).
-/

namespace RskFsm

/-- A Python string, modelled as its list of characters. -/
abbrev PyStr := List Char

/-- Python `s.split(sep)` with an explicit separator: splits at every
occurrence of `sep`, never collapsing; `"".split(sep) == ['']`. -/
def pySplit (sep : Char) : PyStr → List PyStr
  | [] => [[]]
  | c :: cs =>
    match pySplit sep cs with
    | [] => [[]]
    | w :: ws => if c = sep then [] :: w :: ws else (c :: w) :: ws

/-- Python `sep.join(parts)`: concatenation with `sep` between elements. -/
def pyJoin (sep : Char) : List PyStr → PyStr
  | [] => []
  | [w] => w
  | w :: ws => w ++ sep :: pyJoin sep ws

/-- Python lexicographic string comparison `x <= y` (by character code). -/
def pyLe : PyStr → PyStr → Bool
  | [], _ => true
  | _ :: _, [] => false
  | a :: as', b :: bs => if a < b then true else if b < a then false else pyLe as' bs

/-! ## Spec model (`Fsm`, `State`, `Transition` mixins) -/

/-- The `condition` field of a transition in the input: absent, the JSON
value `null`, a plain condition name, or a `{"not": name}` object. -/
inductive CondF where
  | absent
  | null
  | name (s : PyStr)
  | notName (s : PyStr)
deriving DecidableEq, Repr

/-- The `next` field of a transition in the input: absent (internal
transition, Python property value `False`), the JSON value `null` (final),
or a string (pointer or sibling name). -/
inductive NextF where
  | absent
  | null
  | ptr (s : PyStr)
deriving DecidableEq, Repr

/-- A transition object (`Transition` mixin view). -/
structure TransitionV where
  event : PyStr
  condition : CondF
  actions : List PyStr
  next : NextF
deriving DecidableEq, Repr

/-- `Transition.condition`: the `(name, taken)` pair.  A missing key gives
`(None, None)`; a `{"not": n}` object gives `(n, False)`; any other value
`v` (including `None`, via the `TypeError` branch) gives `(v, True)`. -/
def condPair : CondF → Option PyStr × Option Bool
  | .absent => (none, none)
  | .null => (none, some true)
  | .name s => (some s, some true)
  | .notName s => (some s, some false)

/-- A state object (`State` mixin view): name, optional `initial` child
name, `enter`/`exit` action lists, transitions, child states. -/
inductive StateT where
  | mk (name : PyStr) (initial : Option PyStr) (enter : List PyStr)
       (exitA : List PyStr) (transitions : List TransitionV)
       (children : List StateT)

/-- `State.name`. -/
def StateT.name : StateT → PyStr
  | .mk n _ _ _ _ _ => n

/-- `State.initial_state` (None when the `initial` key is missing). -/
def StateT.initialName : StateT → Option PyStr
  | .mk _ i _ _ _ _ => i

/-- `State.enter_actions` (`[]` when the `enter` key is missing). -/
def StateT.enterActions : StateT → List PyStr
  | .mk _ _ en _ _ _ => en

/-- `State.exit_actions` (`[]` when the `exit` key is missing). -/
def StateT.exitActions : StateT → List PyStr
  | .mk _ _ _ ex _ _ => ex

/-- `State.transitions` (empty when the `transitions` key is missing). -/
def StateT.transitions : StateT → List TransitionV
  | .mk _ _ _ _ ts _ => ts

/-- The child states (`state['states']`, `[]` when missing). -/
def StateT.children : StateT → List StateT
  | .mk _ _ _ _ _ cs => cs

/-- An FSM object (`Fsm` mixin view): declared initial name, root states. -/
structure FsmT where
  initial : PyStr
  states : List StateT

/-! ## Pointer algebra (`Builder.pointer_to_path`, `Builder.path_to_pointer`) -/

/-- `Builder.pointer_to_path(pointer)`.  The argument is `Option` so that
Python `None` (whose `.split` raises `AttributeError`, turned into
`ValueError`) is representable; `none` as a result models the raise.
The code returns `path[1:]` whenever `pointer.split('/')` has an empty
first element. -/
def pointer_to_path : Option PyStr → Option (List PyStr)
  | none => none
  | some s =>
    match pySplit '/' s with
    | [] => none
    | p0 :: rest => if p0 = [] then some rest else none

/-- `pointer_to_path` on a string argument. -/
def pathOfPtr (s : PyStr) : Option (List PyStr) :=
  pointer_to_path (some s)

/-- `Builder.path_to_pointer(path)`: raises (`none`) when `path` is empty
or its first segment starts with `'.'`; otherwise `'/' + '/'.join(path)`. -/
def path_to_pointer : List PyStr → Option PyStr
  | [] => none
  | p0 :: rest =>
    if p0.head? = some '.' then none
    else some ('/' :: pyJoin '/' (p0 :: rest))

/-! ## Builder instance state -/

/-- The mutable instance state of `Builder`: `states` (a `dict`, modelled
as an insertion-ordered association list), the `events`/`conditions`/
`actions` sets (modelled as insertion-ordered duplicate-free lists; CPython
set iteration order is not modelled, only membership), and `initial`. -/
structure BuilderSt where
  statesList : List (PyStr × StateT)
  events : List PyStr
  conditions : List PyStr
  actions : List PyStr
  initial : Option PyStr

/-- The state of a fresh `Builder` after `__init__`. -/
def emptyBuilder : BuilderSt :=
  ⟨[], [], [], [], none⟩

/-- `self.states[pointer]` dict lookup; `none` models `KeyError`. -/
def lookupB : List (PyStr × StateT) → PyStr → Option StateT
  | [], _ => none
  | (k, v) :: rest, p => if k = p then some v else lookupB rest p

/-- The loop of `Builder.initial_state`: follow declared `initial` links,
extending the path one name at a time.  `while state.initial_state:` tests
Python truthiness, so a missing or empty initial name stops the loop.
Each successful step looks up a strictly longer pointer, so at most
`|states|` steps can succeed; `fuel` bounds the recursion and is set to
that bound by the wrapper, making the model agree with the Python loop
(which otherwise ends in a `KeyError`, modelled as `none`). -/
def initialFrom (B : BuilderSt) : Nat → List PyStr → StateT → PyStr → Option PyStr
  | _, _, .mk _ none _ _ _ _, ptr => some ptr
  | _, _, .mk _ (some []) _ _ _ _, ptr => some ptr
  | 0, _, .mk _ (some _) _ _ _ _, _ => none
  | fuel + 1, path, .mk _ (some i) _ _ _ _, _ =>
    let path' := path ++ [i]
    match path_to_pointer path' with
    | none => none
    | some ptr' =>
      match lookupB B.statesList ptr' with
      | none => none
      | some st' => initialFrom B fuel path' st' ptr'

/-- `Builder.initial_state(pointer)`: the deepest nested initial state of
the state at `pointer` (`initial_of`).  `none` models `ValueError` (and
the uncaught `KeyError` of the loop). -/
def initial_state (B : BuilderSt) (ptr : PyStr) : Option PyStr :=
  match lookupB B.statesList ptr with
  | none => none
  | some st =>
    match pathOfPtr ptr with
    | none => none
    | some path => initialFrom B (B.statesList.length + 1) path st ptr

/-! ## Steps and enter/exit step construction -/

/-- One element of a `steps` list: `{'state': p}` (with `none` standing
for Python `None`, the terminal state) or `{'actions': l}`. -/
inductive Step where
  | setState (p : Option PyStr)
  | runActions (l : List PyStr)
deriving DecidableEq, Repr

/-- The pop loop of `_exit_steps`: while `path != dst_path[:len(path)]`,
emit the popped state's exit-actions then `set-state`, and pop.  The loop
pops one segment per iteration and stops no later than at the empty path,
so `fuel := |path| + 1` (supplied by the wrapper `exitLoop`) makes the
structural recursion compute exactly the Python loop; the `fuel = 0` case
is unreachable. -/
def exitLoopF (B : BuilderSt) (dp : List PyStr) : Nat → List PyStr → Option (List Step)
  | 0, _ => none
  | fuel + 1, path =>
    if path = dp.take path.length then some []
    else
      match path_to_pointer path with
      | none => none
      | some ptr =>
        match lookupB B.statesList ptr with
        | none => none
        | some st =>
          match exitLoopF B dp fuel path.dropLast with
          | none => none
          | some rest =>
            some ([Step.runActions st.exitActions, Step.setState (some ptr)] ++ rest)

/-- The pop loop of `_exit_steps` (see `exitLoopF`). -/
def exitLoop (B : BuilderSt) (path dp : List PyStr) : Option (List Step) :=
  exitLoopF B dp (path.length + 1) path

/-- `Builder._exit_steps(src, dst)`; `dst = none` models Python `None`
(final transition). -/
def exitSteps (B : BuilderSt) (src : PyStr) (dst : Option PyStr) : Option (List Step) :=
  if some src = dst then
    match lookupB B.statesList src with
    | none => none
    | some st => some [Step.runActions st.exitActions, Step.setState (some src)]
  else
    match pathOfPtr src with
    | none => none
    | some sp =>
      match (match dst with | none => some [] | some d => pathOfPtr d) with
      | none => none
      | some dp => exitLoop B sp dp

/-- The pop loop of `_enter_steps`: pop `path` until it is a prefix of
`dp` (`path == dst_path[:len(path)]`), returning the remaining path (the
lowest common ancestor of the two paths).  Fuel as in `exitLoopF`: with
`fuel := |path| + 1` the `fuel = 0` case is unreachable (the empty path is
a prefix of anything). -/
def lcaPathF (dp : List PyStr) : Nat → List PyStr → List PyStr
  | 0, path => path
  | fuel + 1, path =>
    if path = dp.take path.length then path
    else lcaPathF dp fuel path.dropLast

/-- The pop loop of `_enter_steps` (see `lcaPathF`). -/
def lcaPath (path dp : List PyStr) : List PyStr :=
  lcaPathF dp (path.length + 1) path

/-- The push loop of `_enter_steps`: with `pre` a prefix of the
destination path and `rest` the remaining segments (`dst_path[len(path)]`
successively), emit `set-state` then enter-actions for each deeper
state. -/
def enterChain (B : BuilderSt) (pre : List PyStr) : List PyStr → Option (List Step)
  | [] => some []
  | n :: rest =>
    let p := pre ++ [n]
    match path_to_pointer p with
    | none => none
    | some ptr =>
      match lookupB B.statesList ptr with
      | none => none
      | some st =>
        match enterChain B p rest with
        | none => none
        | some tail =>
          some ([Step.setState (some ptr), Step.runActions st.enterActions] ++ tail)

/-- `Builder._enter_steps(src, dst)`; `src = none` models Python `None`
(initial transition). -/
def enterSteps (B : BuilderSt) (src : Option PyStr) (dst : PyStr) : Option (List Step) :=
  if src = some dst then
    match lookupB B.statesList dst with
    | none => none
    | some st => some [Step.setState (some dst), Step.runActions st.enterActions]
  else
    match (match src with | none => some [] | some s => pathOfPtr s) with
    | none => none
    | some sp =>
      match pathOfPtr dst with
      | none => none
      | some dp =>
        let lca := lcaPath sp dp
        if lca = dp then
          match path_to_pointer lca with
          | none => none
          | some ptr => some [Step.setState (some ptr)]
        else enterChain B lca (dp.drop lca.length)

/-! ## Next-state resolution (`Builder._next_state`) -/

/-- The relative-pointer loop of `_next_state`: `'.'` is a no-op, `'..'`
pops (underflow absorbed: `dropLast [] = []`), any other segment is
appended. -/
def relWalk : List PyStr → List PyStr → List PyStr
  | path, [] => path
  | path, e :: es =>
    if e = ['.'] then relWalk path es
    else if e = ['.', '.'] then relWalk path.dropLast es
    else relWalk (path ++ [e]) es

/-- `Builder._next_state(next_state, path)`.  Result `some none` is the
terminal (final) state, `some (some p)` an absolute pointer, `none` a
raised error.  Note that for `NextF.null` (final) the function returns
directly, without applying `initial_state`. -/
def nextStateF (B : BuilderSt) : NextF → List PyStr → Option (Option PyStr)
  | .null, path =>
    match path with
    | [] => none
    | _ :: _ =>
      let p := path.dropLast
      if p = [] then some none
      else
        match path_to_pointer p with
        | none => none
        | some ptr => some (some ptr)
  | .ptr s, path =>
    match s with
    | '/' :: _ =>
      match initial_state B s with
      | none => none
      | some r => some (some r)
    | '.' :: _ =>
      match path_to_pointer (relWalk path (pySplit '/' s)) with
      | none => none
      | some dst =>
        match initial_state B dst with
        | none => none
        | some r => some (some r)
    | _ =>
      match path with
      | [] => none
      | _ :: _ =>
        match path_to_pointer (path.dropLast ++ [s]) with
        | none => none
        | some dst =>
          match initial_state B dst with
          | none => none
          | some r => some (some r)
  | .absent, _ => none

/-! ## Transition planning (`Builder.get_transitions`) -/

/-- One element of the list returned by `get_transitions`:
`{'condition': c, 'taken': t, 'steps': s}`. -/
structure Entry where
  condition : Option PyStr
  taken : Option Bool
  steps : List Step
deriving DecidableEq, Repr

/-- The step list built for one matching transition `t` discovered at
ancestor path `spath` while handling an event observed in `src`. -/
def stepsFor (B : BuilderSt) (src : PyStr) (spath : List PyStr)
    (t : TransitionV) : Option (List Step) :=
  match t.next with
  | .absent => some [Step.runActions t.actions]
  | nx =>
    match nextStateF B nx spath with
    | none => none
    | some dst =>
      match exitSteps B src dst with
      | none => none
      | some ex =>
        match dst with
        | none => some (ex ++ [Step.setState none] ++ [Step.runActions t.actions])
        | some d =>
          match enterSteps B (some src) d with
          | none => none
          | some en => some (ex ++ [Step.runActions t.actions] ++ en)

/-- The `for transition in state.transitions` loop of `get_transitions`:
returns the entries contributed by one state together with a flag telling
whether an unconditional transition caused an early `return`. -/
def transLoop (B : BuilderSt) (src : PyStr) (spath : List PyStr) (ev : PyStr) :
    List TransitionV → Option (List Entry × Bool)
  | [] => some ([], false)
  | t :: ts =>
    if t.event = ev then
      match stepsFor B src spath t with
      | none => none
      | some steps =>
        let e : Entry := ⟨(condPair t.condition).1, (condPair t.condition).2, steps⟩
        if (condPair t.condition).1 = none then some ([e], true)
        else
          match transLoop B src spath ev ts with
          | none => none
          | some (rest, stop) => some (e :: rest, stop)
    else transLoop B src spath ev ts

/-- The `while path` loop of `get_transitions`: collect matching
transitions in reverse state-nesting order, popping one segment per
iteration, stopping early after an unconditional transition.  Fuel as in
`exitLoopF`: the loop pops once per iteration and stops at the empty
path, so `fuel := |path| + 1` makes the `fuel = 0` case unreachable. -/
def ancLoopF (B : BuilderSt) (src : PyStr) (ev : PyStr) :
    Nat → List PyStr → Option (List Entry)
  | 0, _ => none
  | fuel + 1, path =>
    if path = [] then some []
    else
      match path_to_pointer path with
      | none => none
      | some ptr =>
        match lookupB B.statesList ptr with
        | none => none
        | some st =>
          match transLoop B src path ev st.transitions with
          | none => none
          | some (es, stop) =>
            if stop then some es
            else
              match ancLoopF B src ev fuel path.dropLast with
              | none => none
              | some rest => some (es ++ rest)

/-- The `while path` loop of `get_transitions` (see `ancLoopF`). -/
def ancLoop (B : BuilderSt) (src : PyStr) (ev : PyStr) (path : List PyStr) :
    Option (List Entry) :=
  ancLoopF B src ev (path.length + 1) path

/-- `Builder.get_transitions(event, src)`. -/
def get_transitions (B : BuilderSt) (ev src : PyStr) : Option (List Entry) :=
  match pathOfPtr src with
  | none => none
  | some sp => ancLoop B src ev sp

/-- `Builder.get_initial_transition()['steps']`.  With `self.initial`
still `None` the Python code would crash on `self.states[None]`; this is
modelled as `none`. -/
def get_initial_transition (B : BuilderSt) : Option (List Step) :=
  match B.initial with
  | none => none
  | some i => enterSteps B none i

/-! ## Annotated planner

`getTransitionsA` recomputes `get_transitions` while also recording, for
each produced entry, the ancestor path it came from, the index of its
transition in that state's declared list, the transition itself, and the
resolved destination (`none` for an internal transition).  It exists only
to let ordering/provenance properties be stated; `stripA` projects back to
the entries of `get_transitions`. -/

/-- An entry of `get_transitions` together with its provenance. -/
structure AEntry where
  path : List PyStr
  tIdx : Nat
  trans : TransitionV
  dst : Option (Option PyStr)
  condition : Option PyStr
  taken : Option Bool
  steps : List Step
deriving DecidableEq, Repr

/-- Forget the annotations of an `AEntry`. -/
def stripA (e : AEntry) : Entry :=
  ⟨e.condition, e.taken, e.steps⟩

/-- Annotated version of `transLoop`; `k` is the index in the state's
declared transition list of the first transition of the argument list. -/
def transLoopA (B : BuilderSt) (src : PyStr) (spath : List PyStr) (ev : PyStr) :
    Nat → List TransitionV → Option (List AEntry × Bool)
  | _, [] => some ([], false)
  | k, t :: ts =>
    if t.event = ev then
      match stepsFor B src spath t with
      | none => none
      | some steps =>
        let dst : Option (Option PyStr) :=
          match t.next with
          | .absent => none
          | nx => nextStateF B nx spath
        let e : AEntry :=
          ⟨spath, k, t, dst, (condPair t.condition).1, (condPair t.condition).2, steps⟩
        if (condPair t.condition).1 = none then some ([e], true)
        else
          match transLoopA B src spath ev (k + 1) ts with
          | none => none
          | some (rest, stop) => some (e :: rest, stop)
    else transLoopA B src spath ev (k + 1) ts

/-- Annotated version of `ancLoopF`. -/
def ancLoopAF (B : BuilderSt) (src : PyStr) (ev : PyStr) :
    Nat → List PyStr → Option (List AEntry)
  | 0, _ => none
  | fuel + 1, path =>
    if path = [] then some []
    else
      match path_to_pointer path with
      | none => none
      | some ptr =>
        match lookupB B.statesList ptr with
        | none => none
        | some st =>
          match transLoopA B src path ev 0 st.transitions with
          | none => none
          | some (es, stop) =>
            if stop then some es
            else
              match ancLoopAF B src ev fuel path.dropLast with
              | none => none
              | some rest => some (es ++ rest)

/-- Annotated version of `ancLoop`. -/
def ancLoopA (B : BuilderSt) (src : PyStr) (ev : PyStr) (path : List PyStr) :
    Option (List AEntry) :=
  ancLoopAF B src ev (path.length + 1) path

/-- Annotated version of `get_transitions`. -/
def getTransitionsA (B : BuilderSt) (ev src : PyStr) : Option (List AEntry) :=
  match pathOfPtr src with
  | none => none
  | some sp => ancLoopA B src ev sp

/-! ## Indexing walk (`Fsm.walk` / `State.walk` with `Builder.walk_push`,
`Builder.walk_pop`) and `Builder.build` -/

/-- Python `set.add`: insert if not already a member (the model keeps
insertion order; CPython's hash order is not modelled). -/
def addNew (l : List PyStr) (x : PyStr) : List PyStr :=
  if x ∈ l then l else l ++ [x]

/-- Add every element of `xs` to the set `l`. -/
def addAll (l : List PyStr) (xs : List PyStr) : List PyStr :=
  xs.foldl addNew l

/-- The accumulation part of `Builder.walk_push`: record the state under
its pointer and union its action, event and condition names into the
builder's sets.  A condition name is only added when it is truthy in
Python (not `None`, not the empty string). -/
def accum (B : BuilderSt) (ptr : PyStr) (st : StateT) : BuilderSt :=
  let acts := addAll (addAll B.actions st.exitActions) st.enterActions
  let (evs, conds, acts') := st.transitions.foldl
    (fun acc t =>
      let evs := addNew acc.1 t.event
      let conds :=
        match (condPair t.condition).1 with
        | some s => if s = [] then acc.2.1 else addNew acc.2.1 s
        | none => acc.2.1
      (evs, conds, addAll acc.2.2 t.actions))
    (B.events, B.conditions, acts)
  { B with statesList := B.statesList ++ [(ptr, st)],
           events := evs, conditions := conds, actions := acts' }

/-- Result of walking: either the walk completed (`ok`, with the builder
state and the shared path list), or an exception was raised part-way
(`err`, keeping the builder state accumulated so far — the Python
instance keeps its mutations when `walk` raises). -/
inductive WRes where
  | ok (B : BuilderSt) (path : List PyStr)
  | err (B : BuilderSt)

/-- The `for state in states` sibling loop of `walk`: apply `f` (walking
one state) to each sibling in order, threading the builder state and the
shared path list, aborting on error. -/
def walkFold (f : StateT → BuilderSt → List PyStr → WRes) :
    List StateT → BuilderSt → List PyStr → WRes
  | [], B, path => .ok B path
  | st :: ss, B, path =>
    match f st B path with
    | .err B2 => .err B2
    | .ok B2 p2 => walkFold f ss B2 p2

mutual
/-- The number of state nodes in a state subtree (used as walk fuel). -/
def sizeT : StateT → Nat
  | .mk _ _ _ _ _ cs => 1 + sizeL cs
/-- The number of state nodes in a forest (used as walk fuel). -/
def sizeL : List StateT → Nat
  | [] => 0
  | s :: ss => sizeT s + sizeL ss
end

/-- `State.walk` for one state: `walk_push` appends the name, forms the
pointer, rejects duplicates and accumulates; the children are walked
next; `walk_pop` pops the name.  `fuel` bounds the nesting depth and is
set by `walkList` to the total node count of the whole forest, which
exceeds any nesting depth in it, so the `fuel = 0` case is
unreachable. -/
def walkOneF : Nat → StateT → BuilderSt → List PyStr → WRes
  | fuel, .mk n i en ex ts cs, B, path =>
    let path' := path ++ [n]
    match path_to_pointer path' with
    | none => .err B
    | some ptr =>
      if (lookupB B.statesList ptr).isSome then .err B
      else
        match fuel with
        | 0 => .err B
        | fuel' + 1 =>
          match walkFold (walkOneF fuel') cs (accum B ptr (.mk n i en ex ts cs)) path' with
          | .err B2 => .err B2
          | .ok B2 p2 => .ok B2 p2.dropLast

/-- Walk a list of sibling states and their children (`Fsm.walk` /
`State.walk` against a `Builder` walker). -/
def walkList (sts : List StateT) (B : BuilderSt) (path : List PyStr) : WRes :=
  walkFold (walkOneF (sizeL sts)) sts B path

/-- The per-state body of `Builder._check_states`: each declared nested
initial must name an indexed child. -/
def checkStatesList (B : BuilderSt) : List (PyStr × StateT) → Bool
  | [] => true
  | (ptr, st) :: rest =>
    match st.initialName with
    | none => checkStatesList B rest
    | some iname =>
      match pathOfPtr ptr with
      | none => false
      | some pa =>
        match path_to_pointer (pa ++ [iname]) with
        | none => false
        | some ip =>
          if (lookupB B.statesList ip).isSome then checkStatesList B rest
          else false

/-- `Builder._check_states(initial)`: `false` models a raised
`ValueError`. -/
def checkStates (B : BuilderSt) (initial : PyStr) : Bool :=
  match path_to_pointer [initial] with
  | none => false
  | some p0 =>
    if (lookupB B.statesList p0).isSome then checkStatesList B B.statesList
    else false

/-- The per-state body of `Builder._check_transitions`: every non-internal
transition target must resolve without error. -/
def checkTransList (B : BuilderSt) : List (PyStr × StateT) → Bool
  | [] => true
  | (ptr, st) :: rest =>
    match pathOfPtr ptr with
    | none => false
    | some pa =>
      if st.transitions.all (fun t =>
          match t.next with
          | .absent => true
          | nx => (nextStateF B nx pa).isSome) then
        checkTransList B rest
      else false

/-- `Builder._check_transitions()`: `false` models a raised `ValueError`. -/
def checkTransitions (B : BuilderSt) : Bool :=
  checkTransList B B.statesList

/-- `Builder.build(fsm)`.  The first component is the builder state
visible to `build_implementation` (with `initial` set), `none` when the
walk or a check raised; the second component is the instance state after
the call — reset to `emptyBuilder` only on the success path, kept as
accumulated when an exception was raised. -/
def build (B : BuilderSt) (fsm : FsmT) : Option BuilderSt × BuilderSt :=
  match walkList fsm.states B [] with
  | .err B1 => (none, B1)
  | .ok B1 _ =>
    if checkStates B1 fsm.initial then
      if checkTransitions B1 then
        match path_to_pointer [fsm.initial] with
        | none => (none, B1)
        | some p0 =>
          match initial_state B1 p0 with
          | none => (none, B1)
          | some ip => (some { B1 with initial := some ip }, emptyBuilder)
      else (none, B1)
    else (none, B1)

/-! ## Emitter-side sorted views (`target/c.py build_implementation`) -/

/-- The ordering used by Python `sorted` on strings, as a relation. -/
def pyLeR (x y : PyStr) : Prop :=
  pyLe x y = true

instance : DecidableRel pyLeR := fun x y => by
  unfold pyLeR
  infer_instance

/-- `sorted(self.states)` in the C emitter's `build_implementation`:
the dict keys in sorted order. -/
def sortedStates (B : BuilderSt) : List PyStr :=
  List.insertionSort pyLeR (B.statesList.map Prod.fst)

/-- `sorted(self.events)` in the C emitter's `build_implementation`. -/
def sortedEvents (B : BuilderSt) : List PyStr :=
  List.insertionSort pyLeR B.events

/-- `sorted(self.conditions)` in the C emitter's `build_implementation`. -/
def sortedConditions (B : BuilderSt) : List PyStr :=
  List.insertionSort pyLeR B.conditions

/-- `sorted(self.actions)` in the C emitter's `build_implementation`. -/
def sortedActions (B : BuilderSt) : List PyStr :=
  List.insertionSort pyLeR B.actions

/-! ## Concrete fixtures used by counterexamples and witnesses -/

/-- Leaf state `B` (no initial, no actions). -/
def stB1 : StateT := .mk ['B'] none [] [] [] []

/-- Leaf state `C` with enter-action `thud`. -/
def stC1 : StateT := .mk ['C'] none [['t', 'h', 'u', 'd']] [] [] []

/-- Composite state `A` with `initial: B` and children `B`, `C`. -/
def stA1 : StateT := .mk ['A'] (some ['B']) [] [] [] [stB1, stC1]

/-- A builder state indexing `/A`, `/A/B`, `/A/C` (as produced by walking
`stA1`). -/
def bC1 : BuilderSt :=
  ⟨[(['/', 'A'], stA1), (['/', 'A', '/', 'B'], stB1), (['/', 'A', '/', 'C'], stC1)],
   [], [], [], none⟩

/-! ## Claim C3 -/

lemma pySplit_ne_nil (sep : Char) : ∀ s : PyStr, pySplit sep s ≠ []
  | [] => by simp [pySplit]
  | c :: cs => by
    simp only [pySplit]
    cases h : pySplit sep cs with
    | nil => simp
    | cons w ws =>
      by_cases hc : c = sep <;> simp [hc]

/-- Claim C3, failing input: `pointer_to_path('')` does not raise — the
empty string does not begin with `'/'`, yet `''.split('/') == ['']` has an
empty first element, so the code returns `[]` instead of raising
`ValueError` as its own docstring requires.  The second conjunct
characterises the code exactly: it succeeds on the inputs beginning with
`'/'` as the claim states, fails on `None`, and the empty string is the
one further input it accepts. -/
theorem c3_empty_pointer_accepted :
    pointer_to_path (some ([] : PyStr)) = some [] ∧
    (∀ s : PyStr, (pointer_to_path (some s)).isSome = true ↔
      (s = [] ∨ s.head? = some '/')) ∧
    pointer_to_path none = none := by
  refine ⟨by decide, ?_, rfl⟩
  intro s
  cases s with
  | nil => simp [pointer_to_path, pySplit]
  | cons c cs =>
    simp only [pointer_to_path]
    cases h : pySplit '/' cs with
    | nil => exact absurd h (pySplit_ne_nil '/' cs)
    | cons w ws =>
      by_cases hc : c = '/'
      · subst hc
        simp [pySplit, h]
      · simp [pySplit, h, hc]

/-! ## Claim C4 -/

/-- Claim C4, counterexample: the code only inspects the first segment, so
a later segment beginning with `'.'` is accepted: `path_to_pointer(['a',
'.b'])` returns `'/a/.b'` instead of failing. -/
theorem c4_counterexample :
    path_to_pointer [['a'], ['.', 'b']] = some ['/', 'a', '/', '.', 'b'] := by
  decide

/-- Claim C4, amended: `path_to_pointer` fails exactly when the path is
empty or its FIRST segment begins with `'.'` (later segments are not
inspected), and otherwise returns `'/' + '/'.join(path)`. -/
theorem c4_first_segment_only (path : List PyStr) :
    (path_to_pointer path = none ↔
      path = [] ∨ ∃ t rest, path = ('.' :: t) :: rest) ∧
    (path_to_pointer path ≠ none →
      path_to_pointer path = some ('/' :: pyJoin '/' path)) := by
  cases path with
  | nil => simp [path_to_pointer]
  | cons p0 rest =>
    by_cases h : p0.head? = some '.'
    · have hp0 : ∃ t, p0 = '.' :: t := by
        cases p0 with
        | nil => simp at h
        | cons c t =>
          simp only [List.head?_cons, Option.some.injEq] at h
          exact ⟨t, by rw [h]⟩
      obtain ⟨t, ht⟩ := hp0
      subst ht
      constructor
      · simp only [path_to_pointer, List.head?_cons, if_pos rfl]
        exact ⟨fun _ => Or.inr ⟨t, rest, rfl⟩, fun _ => rfl⟩
      · intro hne
        exact absurd (by simp [path_to_pointer]) hne
    · constructor
      · simp only [path_to_pointer, if_neg h]
        constructor
        · intro hc
          exact absurd hc (by simp)
        · rintro (hc | ⟨t, rest', heq⟩)
          · exact absurd hc (by simp)
          · have : p0 = '.' :: t := (List.cons.injEq _ _ _ _ ▸ heq).1
            rw [this] at h
            simp at h
      · intro _
        simp [path_to_pointer, if_neg h]

/-- Claim C4, witness for the amended theorem at a concrete path. -/
theorem c4_first_segment_only_witness :
    (path_to_pointer [['a'], ['.', 'b']] = none ↔
      [['a'], ['.', 'b']] = ([] : List PyStr) ∨
        ∃ t rest, ([['a'], ['.', 'b']] : List PyStr) = ('.' :: t) :: rest) ∧
    (path_to_pointer [['a'], ['.', 'b']] ≠ none →
      path_to_pointer [['a'], ['.', 'b']] =
        some ('/' :: pyJoin '/' [['a'], ['.', 'b']])) :=
  c4_first_segment_only [['a'], ['.', 'b']]

/-! ## Claim C2 -/

/-- Claim C2, counterexample: resolving a `final` target from context
`/A/B` yields the parent `/A` as-is; `initial_of(/A)` would be `/A/B`
(state `A` declares `initial: B`), so the resolved destination is NOT
further transformed by `initial_of`, contrary to the claim. -/
theorem c2_counterexample :
    nextStateF bC1 NextF.null [['A'], ['B']] = some (some ['/', 'A']) ∧
    initial_state bC1 ['/', 'A'] = some ['/', 'A', '/', 'B'] ∧
    (['/', 'A'] : PyStr) ≠ ['/', 'A', '/', 'B'] := by
  refine ⟨by decide, by decide, by decide⟩

/-- Claim C2, amended: a `final` target pops one segment from the context
path; at depth 1 the destination is terminal (`some none`); otherwise the
destination is the parent's pointer, returned as-is — in particular the
result never depends on the builder's state index, so no `initial_of`
descent happens. -/
theorem c2_final_pops_parent (B : BuilderSt) (path : List PyStr) (h : path ≠ []) :
    (∀ B' : BuilderSt, nextStateF B' NextF.null path = nextStateF B NextF.null path) ∧
    (path.dropLast = [] → nextStateF B NextF.null path = some none) ∧
    (path.dropLast ≠ [] → nextStateF B NextF.null path =
      match path_to_pointer path.dropLast with
      | none => none
      | some ptr => some (some ptr)) := by
  cases path with
  | nil => exact absurd rfl h
  | cons p0 rest =>
    refine ⟨fun B' => rfl, fun hd => ?_, fun hd => ?_⟩
    · simp only [nextStateF, hd]
      rfl
    · simp only [nextStateF, if_neg hd]

/-- Claim C2, witness for the amended theorem at a concrete context. -/
theorem c2_final_pops_parent_witness :
    ([['A'], ['B']] : List PyStr) ≠ [] ∧
    ((∀ B' : BuilderSt,
        nextStateF B' NextF.null [['A'], ['B']] = nextStateF bC1 NextF.null [['A'], ['B']]) ∧
      (([['A'], ['B']] : List PyStr).dropLast = [] →
        nextStateF bC1 NextF.null [['A'], ['B']] = some none) ∧
      (([['A'], ['B']] : List PyStr).dropLast ≠ [] →
        nextStateF bC1 NextF.null [['A'], ['B']] =
          match path_to_pointer ([['A'], ['B']] : List PyStr).dropLast with
          | none => none
          | some ptr => some (some ptr))) :=
  ⟨by decide, c2_final_pops_parent bC1 [['A'], ['B']] (by decide)⟩

/-! ## Claim C1 -/

/-- Sequence a list of optional step lists, concatenating on success. -/
def joinM : List (Option (List Step)) → Option (List Step)
  | [] => some []
  | none :: _ => none
  | some x :: os =>
    match joinM os with
    | none => none
    | some r => some (x ++ r)

/-- The two steps entering the state at path `p`: `set-state(p)` then its
enter-actions. -/
def enterPair (B : BuilderSt) (p : List PyStr) : Option (List Step) :=
  match path_to_pointer p with
  | none => none
  | some ptr =>
    match lookupB B.statesList ptr with
    | none => none
    | some st => some [Step.setState (some ptr), Step.runActions st.enterActions]

/-- Spec-side description of the enter phase, written from the spec's
words: for each state strictly below the LCA on the destination path, in
top-down order, a `set-state` step followed by that state's
enter-actions — and no step at all for the LCA itself. -/
def enterStepsSpec (B : BuilderSt) (lca dp : List PyStr) : Option (List Step) :=
  joinM ((List.range (dp.length - lca.length)).map fun k =>
    enterPair B (dp.take (lca.length + k + 1)))

lemma lcaPathF_take (dp : List PyStr) :
    ∀ fuel p, p.length < fuel → lcaPathF dp fuel p = dp.take (lcaPathF dp fuel p).length
  | 0, p, h => absurd h (by omega)
  | fuel + 1, p, h => by
    rw [lcaPathF]
    split
    · rename_i hc
      exact hc
    · rename_i hc
      have hpne : p ≠ [] := by
        intro he
        subst he
        simp at hc
      refine lcaPathF_take dp fuel p.dropLast ?_
      have := List.length_pos.mpr hpne
      simp only [List.length_dropLast]
      omega

lemma lcaPathF_pre_left (dp : List PyStr) :
    ∀ fuel p, p.length < fuel → lcaPathF dp fuel p <+: p
  | 0, p, h => absurd h (by omega)
  | fuel + 1, p, h => by
    rw [lcaPathF]
    split
    · exact List.prefix_rfl
    · rename_i hc
      have hpne : p ≠ [] := by
        intro he
        subst he
        simp at hc
      refine (lcaPathF_pre_left dp fuel p.dropLast ?_).trans (List.dropLast_prefix p)
      have := List.length_pos.mpr hpne
      simp only [List.length_dropLast]
      omega

lemma lcaPath_take (p dp : List PyStr) :
    lcaPath p dp = dp.take (lcaPath p dp).length :=
  lcaPathF_take dp (p.length + 1) p (by omega)

lemma lcaPath_pre_left (p dp : List PyStr) : lcaPath p dp <+: p :=
  lcaPathF_pre_left dp (p.length + 1) p (by omega)

lemma joinM_cons (o : Option (List Step)) (os : List (Option (List Step))) :
    joinM (o :: os) =
      match o with
      | none => none
      | some x =>
        match joinM os with
        | none => none
        | some r => some (x ++ r) := by
  cases o <;> rfl

lemma enterChain_eq_spec (B : BuilderSt) : ∀ (rest pre : List PyStr),
    enterChain B pre rest =
      joinM ((List.range rest.length).map fun k => enterPair B (pre ++ rest.take (k + 1)))
  | [], pre => by simp [enterChain, joinM]
  | n :: rest', pre => by
    rw [List.length_cons, List.range_succ_eq_map, List.map_cons, List.map_map]
    have hmap :
        (List.range rest'.length).map
            ((fun k => enterPair B (pre ++ (n :: rest').take (k + 1))) ∘ Nat.succ) =
          (List.range rest'.length).map
            (fun k => enterPair B ((pre ++ [n]) ++ rest'.take (k + 1))) := by
      apply List.map_congr_left
      intro k _
      simp only [Function.comp_apply, List.take_succ_cons]
      rw [show pre ++ n :: rest'.take (k + 1) = (pre ++ [n]) ++ rest'.take (k + 1) by
        simp]
    rw [hmap]
    simp only [List.take_succ_cons, List.take_zero]
    rw [enterChain, joinM_cons, ← enterChain_eq_spec B rest' (pre ++ [n])]
    cases h1 : path_to_pointer (pre ++ [n]) with
    | none => simp only [enterPair, h1]
    | some ptr =>
      cases h2 : lookupB B.statesList ptr with
      | none => simp only [enterPair, h1, h2]
      | some st =>
        simp only [enterPair, h1, h2]

/-- Claim C1, counterexample: for the external transition `/A/B → /A/C`
(LCA `/A`, destination not an ancestor of the source) the enter-step list
is exactly `set-state(/A/C)` followed by `C`'s enter-actions — no
`set-state(/A)` step for the LCA is emitted, so the claimed shape
(starting with a `set-state(LCA)` step) is wrong. -/
theorem c1_counterexample :
    enterSteps bC1 (some ['/', 'A', '/', 'B']) ['/', 'A', '/', 'C'] =
      some [Step.setState (some ['/', 'A', '/', 'C']),
            Step.runActions [['t', 'h', 'u', 'd']]] ∧
    ∀ s ∈ [Step.setState (some ['/', 'A', '/', 'C']),
           Step.runActions [['t', 'h', 'u', 'd']]],
      s ≠ Step.setState (some ['/', 'A']) := by
  refine ⟨by decide, by decide⟩

/-- Claim C1, amended: for an external transition whose resolved
destination `dst` differs from `src` and is not an ancestor of `src`, the
enter-step list contains no step for the LCA; it consists exactly of, for
each state from the LCA's child down to `dst`, a `set-state` step followed
by that state's enter-actions. -/
theorem c1_enter_chain (B : BuilderSt) (src dst : PyStr) (sp dp : List PyStr)
    (h1 : pathOfPtr src = some sp) (h2 : pathOfPtr dst = some dp)
    (h3 : ¬ dp <+: sp) :
    enterSteps B (some src) dst = enterStepsSpec B (lcaPath sp dp) dp := by
  have hsd : src ≠ dst := by
    intro he
    subst he
    rw [h1] at h2
    exact h3 (Option.some.inj h2 ▸ List.prefix_rfl)
  rw [enterSteps, if_neg (by simpa using hsd)]
  simp only [h1, h2]
  have hlca_dp : lcaPath sp dp = dp.take (lcaPath sp dp).length := lcaPath_take sp dp
  have hne : lcaPath sp dp ≠ dp := by
    intro he
    exact h3 (he ▸ lcaPath_pre_left sp dp)
  rw [if_neg hne, enterChain_eq_spec, enterStepsSpec]
  rw [List.length_drop]
  congr 1
  apply List.map_congr_left
  intro k _
  congr 1
  conv_rhs =>
    rw [show (lcaPath sp dp).length + k + 1 = (lcaPath sp dp).length + (k + 1) by omega,
      List.take_add]
  rw [← hlca_dp]

/-- Claim C1, witness for the amended theorem on the transition
`/A/B → /A/C` of the concrete fixture. -/
theorem c1_enter_chain_witness :
    (pathOfPtr ['/', 'A', '/', 'B'] = some [['A'], ['B']] ∧
      pathOfPtr ['/', 'A', '/', 'C'] = some [['A'], ['C']] ∧
      ¬ ([['A'], ['C']] : List PyStr) <+: [['A'], ['B']]) ∧
    enterSteps bC1 (some ['/', 'A', '/', 'B']) ['/', 'A', '/', 'C'] =
      enterStepsSpec bC1 (lcaPath [['A'], ['B']] [['A'], ['C']]) [['A'], ['C']] :=
  ⟨⟨by decide, by decide, by decide⟩,
    c1_enter_chain bC1 ['/', 'A', '/', 'B'] ['/', 'A', '/', 'C'] [['A'], ['B']]
      [['A'], ['C']] (by decide) (by decide) (by decide)⟩

/-! ## Claim C8 -/

lemma pyLe_total : ∀ x y : PyStr, pyLe x y = true ∨ pyLe y x = true
  | [], _ => Or.inl rfl
  | _ :: _, [] => Or.inr rfl
  | a :: as', b :: bs => by
    by_cases h1 : a < b
    · left
      simp [pyLe, h1]
    · by_cases h2 : b < a
      · right
        simp [pyLe, h2]
      · have he : a = b := le_antisymm (not_lt.mp h2) (not_lt.mp h1)
        subst he
        cases pyLe_total as' bs with
        | inl h =>
          left
          simp [pyLe, h]
        | inr h =>
          right
          simp [pyLe, h]

lemma pyLe_trans : ∀ x y z : PyStr, pyLe x y = true → pyLe y z = true → pyLe x z = true
  | [], _, _, _, _ => rfl
  | _ :: _, [], _, hxy, _ => by simp [pyLe] at hxy
  | _ :: _, _ :: _, [], _, hyz => by simp [pyLe] at hyz
  | a :: as', b :: bs, c :: cs, hxy, hyz => by
    simp only [pyLe] at hxy hyz ⊢
    by_cases h1 : a < b
    · by_cases h2 : b < c
      · simp [lt_trans h1 h2]
      · by_cases h3 : c < b
        · simp [h2, h3] at hyz
        · have : b = c := le_antisymm (not_lt.mp h3) (not_lt.mp h2)
          subst this
          simp [h1]
    · by_cases h4 : b < a
      · simp [h1, h4] at hxy
      · have : a = b := le_antisymm (not_lt.mp h4) (not_lt.mp h1)
        subst this
        simp only [if_neg h1, lt_irrefl, if_neg (lt_irrefl a)] at hxy ⊢
        by_cases h2 : a < c
        · simp [h2]
        · by_cases h3 : c < a
          · simp [h2, h3] at hyz
          · have : a = c := le_antisymm (not_lt.mp h3) (not_lt.mp h2)
            subst this
            simp only [if_neg h2, if_neg (lt_irrefl a)] at hyz ⊢
            exact pyLe_trans as' bs cs hxy hyz

instance : IsTotal PyStr pyLeR :=
  ⟨pyLe_total⟩

instance : IsTrans PyStr pyLeR :=
  ⟨pyLe_trans⟩

/-- Root state named `B`. -/
def stRootB : StateT := .mk ['B'] none [] [] [] []

/-- Root state named `A`. -/
def stRootA : StateT := .mk ['A'] none [] [] [] []

/-- An FSM whose root states are declared in the order `B`, `A`. -/
def fsmBA : FsmT := { initial := ['B'], states := [stRootB, stRootA] }

/-- Claim C8, counterexample: after a successful build of an FSM whose
root states are declared in the order `B`, `A`, the core `Builder`'s
states collection (a dict in pre-order insertion order) lists `/B` before
`/A` — not in sorted order; the sorting happens in the emitters. -/
theorem c8_counterexample :
    ((build emptyBuilder fsmBA).1.map (fun b => b.statesList.map Prod.fst)) =
      some [['/', 'B'], ['/', 'A']] ∧
    ¬ List.Sorted pyLeR [(['/', 'B'] : PyStr), ['/', 'A']] := by
  constructor
  · decide
  · intro h
    have := List.rel_of_sorted_cons h ['/', 'A'] (by simp)
    revert this
    decide

/-- Claim C8, amended: the core `Builder` exposes the states dict in
pre-order insertion order and events/conditions/actions as unordered
sets; it is the emitter (`build_implementation` in `target/c.py`) that
sorts all four collections lexicographically (`sorted(...)`), producing
sorted sequences with exactly the collected members. -/
theorem c8_emitters_sort (B : BuilderSt) :
    (List.Sorted pyLeR (sortedStates B) ∧
      (sortedStates B).Perm (B.statesList.map Prod.fst)) ∧
    (List.Sorted pyLeR (sortedEvents B) ∧ (sortedEvents B).Perm B.events) ∧
    (List.Sorted pyLeR (sortedConditions B) ∧
      (sortedConditions B).Perm B.conditions) ∧
    (List.Sorted pyLeR (sortedActions B) ∧ (sortedActions B).Perm B.actions) :=
  ⟨⟨List.sorted_insertionSort pyLeR _, List.perm_insertionSort pyLeR _⟩,
   ⟨List.sorted_insertionSort pyLeR _, List.perm_insertionSort pyLeR _⟩,
   ⟨List.sorted_insertionSort pyLeR _, List.perm_insertionSort pyLeR _⟩,
   ⟨List.sorted_insertionSort pyLeR _, List.perm_insertionSort pyLeR _⟩⟩

/-! ## Claim C9 -/

/-- A single root state `A` with no substates. -/
def stOnlyA : StateT := .mk ['A'] none [] [] [] []

/-- A valid FSM: `initial: A`, one state `A`. -/
def fsmGood : FsmT := { initial := ['A'], states := [stOnlyA] }

/-- An invalid FSM: `initial: Z` names no state, so `build` raises after
the walk has already recorded `/A`. -/
def fsmBad : FsmT := { initial := ['Z'], states := [stOnlyA] }

/-- Claim C9, counterexample: building `fsmGood` on a fresh builder
succeeds, but building it on the same builder after a failed build of
`fsmBad` fails (the failed call left `/A` in the states dict, so the walk
reports a duplicate state).  The result of `build` is therefore not
independent of an earlier call that raised. -/
theorem c9_counterexample :
    (build emptyBuilder fsmGood).1.isSome = true ∧
    (build (build emptyBuilder fsmBad).2 fsmGood).1.isSome = false := by
  refine ⟨by decide, by decide⟩

/-- Claim C9, amended: a `build` call that returns successfully clears the
instance state (back to that of a fresh builder), so any build after a
successful one is independent of it; only a call that raises leaves the
partially accumulated state behind. -/
theorem c9_success_clears (B : BuilderSt) (fsm : FsmT)
    (h : (build B fsm).1.isSome = true) :
    (build B fsm).2 = emptyBuilder ∧
    ∀ fsm2 : FsmT, build (build B fsm).2 fsm2 = build emptyBuilder fsm2 := by
  have hmain : (build B fsm).2 = emptyBuilder := by
    unfold build at h ⊢
    cases hw : walkList fsm.states B [] with
    | err B1 => simp [hw] at h
    | ok B1 p =>
      simp only [hw] at h ⊢
      by_cases h1 : checkStates B1 fsm.initial
      · simp only [h1, if_true] at h ⊢
        by_cases h2 : checkTransitions B1
        · simp only [h2, if_true] at h ⊢
          cases hp : path_to_pointer [fsm.initial] with
          | none => simp [hp] at h
          | some p0 =>
            simp only [hp] at h ⊢
            cases hi : initial_state B1 p0 with
            | none => simp [hi] at h
            | some ip => simp [hi]
        · simp [h2] at h
      · simp [h1] at h
  exact ⟨hmain, fun fsm2 => by rw [hmain]⟩

/-- Claim C9, witness for the amended theorem on a concrete successful
build. -/
theorem c9_success_clears_witness :
    (build emptyBuilder fsmGood).1.isSome = true ∧
    ((build emptyBuilder fsmGood).2 = emptyBuilder ∧
      ∀ fsm2 : FsmT,
        build (build emptyBuilder fsmGood).2 fsm2 = build emptyBuilder fsm2) :=
  ⟨by decide, c9_success_clears emptyBuilder fsmGood (by decide)⟩

/-! ## Claim C5 -/

lemma transLoop_cond_split (B : BuilderSt) (src : PyStr) (spath : List PyStr) (ev : PyStr) :
    ∀ ts es stop, transLoop B src spath ev ts = some (es, stop) →
      (stop = true → ∃ es' e, es = es' ++ [e] ∧ e.condition = none ∧
          ∀ x ∈ es', x.condition ≠ none) ∧
      (stop = false → ∀ x ∈ es, x.condition ≠ none)
  | [], es, stop, h => by
    simp only [transLoop, Option.some.injEq, Prod.mk.injEq] at h
    obtain ⟨h1, h2⟩ := h
    subst h1
    subst h2
    exact ⟨fun hst => by simp at hst, fun _ x hx => by simp at hx⟩
  | t :: ts, es, stop, h => by
    by_cases hev : t.event = ev
    · simp only [transLoop, if_pos hev] at h
      cases hsf : stepsFor B src spath t with
      | none =>
        simp only [hsf] at h
        exact absurd h (by simp)
      | some steps =>
        simp only [hsf] at h
        by_cases hc : (condPair t.condition).1 = none
        · rw [if_pos hc] at h
          simp only [Option.some.injEq, Prod.mk.injEq] at h
          obtain ⟨h1, h2⟩ := h
          subst h1
          subst h2
          constructor
          · intro _
            exact ⟨[], ⟨(condPair t.condition).1, (condPair t.condition).2, steps⟩,
              by simp, hc, fun x hx => by simp at hx⟩
          · intro hst
            simp at hst
        · rw [if_neg hc] at h
          cases hrec : transLoop B src spath ev ts with
          | none =>
            simp only [hrec] at h
            exact absurd h (by simp)
          | some pr =>
            obtain ⟨rest, stop'⟩ := pr
            simp only [hrec] at h
            simp only [Option.some.injEq, Prod.mk.injEq] at h
            obtain ⟨h1, h2⟩ := h
            subst h1
            subst h2
            obtain ⟨ih1, ih2⟩ := transLoop_cond_split B src spath ev ts rest stop' hrec
            constructor
            · intro hst
              obtain ⟨es', e, he, hcnone, hall⟩ := ih1 hst
              subst he
              refine ⟨⟨(condPair t.condition).1, (condPair t.condition).2, steps⟩ :: es', e,
                by simp, hcnone, ?_⟩
              intro x hx
              rcases List.mem_cons.mp hx with hx | hx
              · subst hx
                exact hc
              · exact hall x hx
            · intro hst x hx
              rcases List.mem_cons.mp hx with hx | hx
              · subst hx
                exact hc
              · exact ih2 hst x hx
    · simp only [transLoop, if_neg hev] at h
      exact transLoop_cond_split B src spath ev ts es stop h

lemma last_only_append {es l : List Entry}
    (hes : ∀ x ∈ es, x.condition ≠ none)
    (hl : ∀ i e, l.get? i = some e → e.condition = none → i + 1 = l.length) :
    ∀ i e, (es ++ l).get? i = some e → e.condition = none → i + 1 = (es ++ l).length := by
  intro i e hget hcond
  by_cases hi : i < es.length
  · rw [List.get?_append hi] at hget
    exact absurd hcond (hes e (List.get?_mem hget))
  · push_neg at hi
    rw [List.get?_append_right hi] at hget
    have := hl _ _ hget hcond
    rw [List.length_append]
    omega

lemma ancLoopF_last_uncond (B : BuilderSt) (src : PyStr) (ev : PyStr) :
    ∀ fuel path l, ancLoopF B src ev fuel path = some l →
      ∀ i e, l.get? i = some e → e.condition = none → i + 1 = l.length
  | 0, path, l, h => by simp [ancLoopF] at h
  | fuel + 1, path, l, h => by
    rw [ancLoopF] at h
    by_cases hp : path = []
    · rw [if_pos hp] at h
      simp only [Option.some.injEq] at h
      subst h
      intro i e hget
      simp at hget
    · rw [if_neg hp] at h
      cases h1 : path_to_pointer path with
      | none =>
        simp only [h1] at h
        exact absurd h (by simp)
      | some ptr =>
        simp only [h1] at h
        cases h2 : lookupB B.statesList ptr with
        | none =>
          simp only [h2] at h
          exact absurd h (by simp)
        | some st =>
          simp only [h2] at h
          cases h3 : transLoop B src path ev st.transitions with
          | none =>
            simp only [h3] at h
            exact absurd h (by simp)
          | some pr =>
            obtain ⟨es, stop⟩ := pr
            simp only [h3] at h
            obtain ⟨c1, c2⟩ := transLoop_cond_split B src path ev st.transitions es stop h3
            cases stop with
            | true =>
              simp only [if_true, Option.some.injEq] at h
              subst h
              obtain ⟨es', e, he, hcnone, hall⟩ := c1 rfl
              subst he
              intro i x hget hcond
              by_cases hi : i < es'.length
              · rw [List.get?_append hi] at hget
                exact absurd hcond (hall x (List.get?_mem hget))
              · push_neg at hi
                rw [List.get?_append_right hi] at hget
                have hlen : i - es'.length < 1 := by
                  by_contra hge
                  push_neg at hge
                  rw [List.get?_eq_none.mpr (by simpa using hge)] at hget
                  exact absurd hget (by simp)
                have : i = es'.length := by omega
                simp [List.length_append]
                omega
            | false =>
              simp only [Bool.false_eq_true, if_false] at h
              cases h4 : ancLoopF B src ev fuel path.dropLast with
              | none =>
                simp only [h4] at h
                exact absurd h (by simp)
              | some rest =>
                simp only [h4] at h
                simp only [Option.some.injEq] at h
                subst h
                exact last_only_append (c2 rfl)
                  (ancLoopF_last_uncond B src ev fuel path.dropLast rest h4)

/-- Claim C5: in every list returned by `get_transitions`, an entry whose
condition is `null` (an unconditional transition) is the last entry of the
list. -/
theorem c5_unconditional_last (B : BuilderSt) (ev src : PyStr) (l : List Entry)
    (h : get_transitions B ev src = some l) :
    ∀ i e, l.get? i = some e → e.condition = none → i + 1 = l.length := by
  unfold get_transitions at h
  cases hp : pathOfPtr src with
  | none =>
    simp only [hp] at h
    exact absurd h (by simp)
  | some sp =>
    simp only [hp] at h
    exact ancLoopF_last_uncond B src ev (sp.length + 1) sp l h

/-- State `A` with two transitions on `X`: a conditional one then an
unconditional one, both targeting `.`. -/
def stA5 : StateT :=
  .mk ['A'] none [] []
    [⟨['X'], .name ['c'], [], .ptr ['.']⟩, ⟨['X'], .absent, [], .ptr ['.']⟩] []

/-- A builder state indexing only `/A` (the `stA5` fixture). -/
def bC5 : BuilderSt := ⟨[(['/', 'A'], stA5)], [['X']], [['c']], [], none⟩

/-- The two entries `get_transitions` returns for `(X, /A)` on `bC5`. -/
def c5List : List Entry :=
  [⟨some ['c'], some true,
    [Step.runActions [], Step.setState (some ['/', 'A']), Step.runActions [],
     Step.setState (some ['/', 'A']), Step.runActions []]⟩,
   ⟨none, none,
    [Step.runActions [], Step.setState (some ['/', 'A']), Step.runActions [],
     Step.setState (some ['/', 'A']), Step.runActions []]⟩]

/-- Claim C5, witness: the planned list for `(X, /A)` on the concrete
fixture has its unconditional entry last. -/
theorem c5_unconditional_last_witness :
    get_transitions bC5 ['X'] ['/', 'A'] = some c5List ∧
    ∀ i e, c5List.get? i = some e → e.condition = none → i + 1 = c5List.length :=
  ⟨by decide, c5_unconditional_last bC5 ['X'] ['/', 'A'] c5List (by decide)⟩

/-! ## Claim C6 -/

lemma transLoopA_mem (B : BuilderSt) (src : PyStr) (spath : List PyStr) (ev : PyStr) :
    ∀ ts k al stop, transLoopA B src spath ev k ts = some (al, stop) →
      ∀ e ∈ al, e.path = spath ∧ k ≤ e.tIdx
  | [], k, al, stop, h => by
    simp only [transLoopA, Option.some.injEq, Prod.mk.injEq] at h
    obtain ⟨h1, _⟩ := h
    subst h1
    intro e he
    simp at he
  | t :: ts, k, al, stop, h => by
    by_cases hev : t.event = ev
    · simp only [transLoopA, if_pos hev] at h
      cases hsf : stepsFor B src spath t with
      | none =>
        simp only [hsf] at h
        exact absurd h (by simp)
      | some steps =>
        simp only [hsf] at h
        by_cases hc : (condPair t.condition).1 = none
        · rw [if_pos hc] at h
          simp only [Option.some.injEq, Prod.mk.injEq] at h
          obtain ⟨h1, _⟩ := h
          subst h1
          intro e he
          simp only [List.mem_singleton] at he
          subst he
          exact ⟨rfl, le_refl k⟩
        · rw [if_neg hc] at h
          cases hrec : transLoopA B src spath ev (k + 1) ts with
          | none =>
            simp only [hrec] at h
            exact absurd h (by simp)
          | some pr =>
            obtain ⟨rest, stop'⟩ := pr
            simp only [hrec, Option.some.injEq, Prod.mk.injEq] at h
            obtain ⟨h1, _⟩ := h
            subst h1
            intro e he
            rcases List.mem_cons.mp he with he | he
            · subst he
              exact ⟨rfl, le_refl k⟩
            · obtain ⟨hp, hk⟩ := transLoopA_mem B src spath ev ts (k + 1) rest stop' hrec e he
              exact ⟨hp, by omega⟩
    · simp only [transLoopA, if_neg hev] at h
      intro e he
      obtain ⟨hp, hk⟩ := transLoopA_mem B src spath ev ts (k + 1) al stop h e he
      exact ⟨hp, by omega⟩

lemma transLoopA_idx (B : BuilderSt) (src : PyStr) (spath : List PyStr) (ev : PyStr) :
    ∀ ts k al stop, transLoopA B src spath ev k ts = some (al, stop) →
      ∀ i j ei ej, al.get? i = some ei → al.get? j = some ej → i < j →
        ei.tIdx < ej.tIdx
  | [], k, al, stop, h => by
    simp only [transLoopA, Option.some.injEq, Prod.mk.injEq] at h
    obtain ⟨h1, _⟩ := h
    subst h1
    intro i j ei ej hi
    simp at hi
  | t :: ts, k, al, stop, h => by
    by_cases hev : t.event = ev
    · simp only [transLoopA, if_pos hev] at h
      cases hsf : stepsFor B src spath t with
      | none =>
        simp only [hsf] at h
        exact absurd h (by simp)
      | some steps =>
        simp only [hsf] at h
        by_cases hc : (condPair t.condition).1 = none
        · rw [if_pos hc] at h
          simp only [Option.some.injEq, Prod.mk.injEq] at h
          obtain ⟨h1, _⟩ := h
          subst h1
          intro i j ei ej hi hj hij
          cases j with
          | zero => omega
          | succ j' => simp at hj
        · rw [if_neg hc] at h
          cases hrec : transLoopA B src spath ev (k + 1) ts with
          | none =>
            simp only [hrec] at h
            exact absurd h (by simp)
          | some pr =>
            obtain ⟨rest, stop'⟩ := pr
            simp only [hrec, Option.some.injEq, Prod.mk.injEq] at h
            obtain ⟨h1, _⟩ := h
            subst h1
            intro i j ei ej hi hj hij
            cases i with
            | zero =>
              cases j with
              | zero => omega
              | succ j' =>
                simp only [List.get?_cons_zero, Option.some.injEq] at hi
                simp only [List.get?_cons_succ] at hj
                subst hi
                have := (transLoopA_mem B src spath ev ts (k + 1) rest stop' hrec
                  ej (List.get?_mem hj)).2
                simpa using by omega
            | succ i' =>
              cases j with
              | zero => omega
              | succ j' =>
                simp only [List.get?_cons_succ] at hi hj
                exact transLoopA_idx B src spath ev ts (k + 1) rest stop' hrec
                  i' j' ei ej hi hj (by omega)
    · simp only [transLoopA, if_neg hev] at h
      exact transLoopA_idx B src spath ev ts (k + 1) al stop h

lemma ancLoopAF_mem (B : BuilderSt) (src ev : PyStr) :
    ∀ fuel path al, ancLoopAF B src ev fuel path = some al →
      ∀ e ∈ al, e.path <+: path
  | 0, path, al, h => by
    simp [ancLoopAF] at h
  | fuel + 1, path, al, h => by
    rw [ancLoopAF] at h
    by_cases hp : path = []
    · rw [if_pos hp] at h
      simp only [Option.some.injEq] at h
      subst h
      intro e he
      simp at he
    · rw [if_neg hp] at h
      cases h1 : path_to_pointer path with
      | none =>
        simp only [h1] at h
        exact absurd h (by simp)
      | some ptr =>
        simp only [h1] at h
        cases h2 : lookupB B.statesList ptr with
        | none =>
          simp only [h2] at h
          exact absurd h (by simp)
        | some st =>
          simp only [h2] at h
          cases h3 : transLoopA B src path ev 0 st.transitions with
          | none =>
            simp only [h3] at h
            exact absurd h (by simp)
          | some pr =>
            obtain ⟨es, stop⟩ := pr
            simp only [h3] at h
            cases stop with
            | true =>
              simp only [if_true, Option.some.injEq] at h
              subst h
              intro e he
              rw [(transLoopA_mem B src path ev st.transitions 0 es true h3 e he).1]
            | false =>
              simp only [Bool.false_eq_true, if_false] at h
              cases h4 : ancLoopAF B src ev fuel path.dropLast with
              | none =>
                simp only [h4] at h
                exact absurd h (by simp)
              | some rest =>
                simp only [h4, Option.some.injEq] at h
                subst h
                intro e he
                rcases List.mem_append.mp he with he | he
                · rw [(transLoopA_mem B src path ev st.transitions 0 es false h3 e he).1]
                · exact (ancLoopAF_mem B src ev fuel path.dropLast rest h4 e he).trans
                    (List.dropLast_prefix path)

lemma ancLoopAF_order (B : BuilderSt) (src ev : PyStr) :
    ∀ fuel path al, ancLoopAF B src ev fuel path = some al →
      ∀ i j ei ej, al.get? i = some ei → al.get? j = some ej → i < j →
        ej.path <+: ei.path ∧ (ei.path = ej.path → ei.tIdx < ej.tIdx)
  | 0, path, al, h => by
    simp [ancLoopAF] at h
  | fuel + 1, path, al, h => by
    rw [ancLoopAF] at h
    by_cases hp : path = []
    · rw [if_pos hp] at h
      simp only [Option.some.injEq] at h
      subst h
      intro i j ei ej hi
      simp at hi
    · rw [if_neg hp] at h
      cases h1 : path_to_pointer path with
      | none =>
        simp only [h1] at h
        exact absurd h (by simp)
      | some ptr =>
        simp only [h1] at h
        cases h2 : lookupB B.statesList ptr with
        | none =>
          simp only [h2] at h
          exact absurd h (by simp)
        | some st =>
          simp only [h2] at h
          cases h3 : transLoopA B src path ev 0 st.transitions with
          | none =>
            simp only [h3] at h
            exact absurd h (by simp)
          | some pr =>
            obtain ⟨es, stop⟩ := pr
            simp only [h3] at h
            cases stop with
            | true =>
              simp only [if_true, Option.some.injEq] at h
              subst h
              intro i j ei ej hi hj hij
              have hpi := (transLoopA_mem B src path ev st.transitions 0 es true h3
                ei (List.get?_mem hi)).1
              have hpj := (transLoopA_mem B src path ev st.transitions 0 es true h3
                ej (List.get?_mem hj)).1
              refine ⟨by rw [hpi, hpj], fun _ => ?_⟩
              exact transLoopA_idx B src path ev st.transitions 0 es true h3 i j ei ej hi hj hij
            | false =>
              simp only [Bool.false_eq_true, if_false] at h
              cases h4 : ancLoopAF B src ev fuel path.dropLast with
              | none =>
                simp only [h4] at h
                exact absurd h (by simp)
              | some rest =>
                simp only [h4, Option.some.injEq] at h
                subst h
                intro i j ei ej hi hj hij
                by_cases hilt : i < es.length
                · have hi' : es.get? i = some ei := by
                    rw [← List.get?_append hilt]
                    exact hi
                  have hpi := (transLoopA_mem B src path ev st.transitions 0 es false h3
                    ei (List.get?_mem hi')).1
                  by_cases hjlt : j < es.length
                  · have hj' : es.get? j = some ej := by
                      rw [← List.get?_append hjlt]
                      exact hj
                    have hpj := (transLoopA_mem B src path ev st.transitions 0 es false h3
                      ej (List.get?_mem hj')).1
                    refine ⟨by rw [hpi, hpj], fun _ => ?_⟩
                    exact transLoopA_idx B src path ev st.transitions 0 es false h3
                      i j ei ej hi' hj' hij
                  · push_neg at hjlt
                    have hj' : rest.get? (j - es.length) = some ej := by
                      rw [← List.get?_append_right hjlt]
                      exact hj
                    have hpj := ancLoopAF_mem B src ev fuel path.dropLast rest h4
                      ej (List.get?_mem hj')
                    constructor
                    · rw [hpi]
                      exact hpj.trans (List.dropLast_prefix path)
                    · intro heq
                      exfalso
                      have hl1 : ej.path.length ≤ path.dropLast.length :=
                        hpj.length_le
                      have hl2 : path.dropLast.length = path.length - 1 :=
                        List.length_dropLast path
                      have hl3 : 0 < path.length :=
                        List.length_pos.mpr hp
                      rw [hpi] at heq
                      rw [← heq] at hl1
                      omega
                · push_neg at hilt
                  have hi' : rest.get? (i - es.length) = some ei := by
                    rw [← List.get?_append_right hilt]
                    exact hi
                  have hjlt : es.length ≤ j := by omega
                  have hj' : rest.get? (j - es.length) = some ej := by
                    rw [← List.get?_append_right hjlt]
                    exact hj
                  exact ancLoopAF_order B src ev fuel path.dropLast rest h4
                    (i - es.length) (j - es.length) ei ej hi' hj' (by omega)

lemma transLoopA_proj (B : BuilderSt) (src : PyStr) (spath : List PyStr) (ev : PyStr) :
    ∀ ts k, transLoop B src spath ev ts =
      (transLoopA B src spath ev k ts).map (fun p => (p.1.map stripA, p.2))
  | [], k => rfl
  | t :: ts, k => by
    by_cases hev : t.event = ev
    · simp only [transLoop, transLoopA, if_pos hev]
      cases hsf : stepsFor B src spath t with
      | none => rfl
      | some steps =>
        by_cases hc : (condPair t.condition).1 = none
        · simp only [if_pos hc]
          rfl
        · simp only [if_neg hc]
          rw [transLoopA_proj B src spath ev ts (k + 1)]
          cases hr : transLoopA B src spath ev (k + 1) ts with
          | none => rfl
          | some pr =>
            obtain ⟨rest, stop⟩ := pr
            rfl
    · simp only [transLoop, transLoopA, if_neg hev]
      exact transLoopA_proj B src spath ev ts (k + 1)

lemma ancLoopAF_proj (B : BuilderSt) (src ev : PyStr) :
    ∀ fuel path, ancLoopF B src ev fuel path =
      (ancLoopAF B src ev fuel path).map (List.map stripA)
  | 0, path => rfl
  | fuel + 1, path => by
    rw [ancLoopF, ancLoopAF]
    by_cases hp : path = []
    · rw [if_pos hp, if_pos hp]
      rfl
    · rw [if_neg hp, if_neg hp]
      cases h1 : path_to_pointer path with
      | none => simp
      | some ptr =>
        cases h2 : lookupB B.statesList ptr with
        | none => simp [h2]
        | some st =>
          simp only [h2]
          rw [transLoopA_proj B src path ev st.transitions 0]
          cases h3 : transLoopA B src path ev 0 st.transitions with
          | none => simp
          | some pr =>
            obtain ⟨es, stop⟩ := pr
            cases stop with
            | true => simp
            | false =>
              simp only [Option.map_some, Bool.false_eq_true, if_false]
              rw [ancLoopAF_proj B src ev fuel path.dropLast]
              cases h4 : ancLoopAF B src ev fuel path.dropLast with
              | none => simp
              | some rest =>
                simp [List.map_append]

lemma prefix_antisymm {l₁ l₂ : List PyStr} (h1 : l₁ <+: l₂) (h2 : l₂ <+: l₁) :
    l₁ = l₂ := by
  obtain ⟨t, rfl⟩ := h1
  have := h2.length_le
  simp only [List.length_append] at this
  have ht : t = [] := List.eq_nil_of_length_eq_zero (by omega)
  subst ht
  simp

/-- Claim C6: entries planned for `(event, src)` are ordered most-specific
first: an entry discovered at a strict ancestor (its origin path a proper
prefix of the other's) always comes later in the list, and two entries
from the same state appear in declared transition order.  The first
conjunct grounds the annotated planner in `get_transitions`. -/
theorem c6_inheritance_order (B : BuilderSt) (ev src : PyStr) (al : List AEntry)
    (h : getTransitionsA B ev src = some al) :
    get_transitions B ev src = some (al.map stripA) ∧
    (∀ i j ei ej, al.get? i = some ei → al.get? j = some ej →
      ej.path <+: ei.path → ei.path ≠ ej.path → i < j) ∧
    (∀ i j ei ej, al.get? i = some ei → al.get? j = some ej → i < j →
      ei.path = ej.path → ei.tIdx < ej.tIdx) := by
  unfold getTransitionsA at h
  cases hp : pathOfPtr src with
  | none =>
    simp only [hp] at h
    exact absurd h (by simp)
  | some sp =>
    simp only [hp] at h
    rw [ancLoopA] at h
    refine ⟨?_, ?_, ?_⟩
    · unfold get_transitions ancLoop
      simp only [hp]
      rw [ancLoopAF_proj B src ev (sp.length + 1) sp, h]
      rfl
    · intro i j ei ej hi hj hpre hne
      rcases lt_trichotomy i j with h' | h' | h'
      · exact h'
      · subst h'
        rw [hi] at hj
        cases hj
        exact absurd rfl hne
      · exfalso
        have := (ancLoopAF_order B src ev (sp.length + 1) sp al h j i ej ei hj hi h').1
        exact hne (prefix_antisymm this hpre)
    · intro i j ei ej hi hj hij heq
      exact (ancLoopAF_order B src ev (sp.length + 1) sp al h i j ei ej hi hj hij).2 heq

/-- Child state `B` with two conditional transitions on `X`. -/
def stB6 : StateT :=
  .mk ['B'] none [] []
    [⟨['X'], .name ['c', '1'], [], .ptr ['.']⟩,
     ⟨['X'], .name ['c', '2'], [], .ptr ['.']⟩] []

/-- Parent state `A` with one conditional transition on `X` and child `B`. -/
def stA6 : StateT :=
  .mk ['A'] none [] [] [⟨['X'], .name ['c', 'A'], [], .ptr ['.']⟩] [stB6]

/-- A builder state indexing `/A` and `/A/B` (the `stA6` fixture). -/
def bC6 : BuilderSt :=
  ⟨[(['/', 'A'], stA6), (['/', 'A', '/', 'B'], stB6)], [['X']],
   [['c', '1'], ['c', '2'], ['c', 'A']], [], none⟩

/-- The annotated entries planned for `(X, /A/B)` on `bC6`: two from
`/A/B` (declared order), then the inherited one from `/A`. -/
def c6List : List AEntry :=
  [⟨[['A'], ['B']], 0,
    ⟨['X'], .name ['c', '1'], [], .ptr ['.']⟩, some (some ['/', 'A', '/', 'B']),
    some ['c', '1'], some true,
    [Step.runActions [], Step.setState (some ['/', 'A', '/', 'B']),
     Step.runActions [], Step.setState (some ['/', 'A', '/', 'B']),
     Step.runActions []]⟩,
   ⟨[['A'], ['B']], 1,
    ⟨['X'], .name ['c', '2'], [], .ptr ['.']⟩, some (some ['/', 'A', '/', 'B']),
    some ['c', '2'], some true,
    [Step.runActions [], Step.setState (some ['/', 'A', '/', 'B']),
     Step.runActions [], Step.setState (some ['/', 'A', '/', 'B']),
     Step.runActions []]⟩,
   ⟨[['A']], 0,
    ⟨['X'], .name ['c', 'A'], [], .ptr ['.']⟩, some (some ['/', 'A']),
    some ['c', 'A'], some true,
    [Step.runActions [], Step.setState (some ['/', 'A', '/', 'B']),
     Step.runActions [], Step.setState (some ['/', 'A'])]⟩]

/-- Claim C6, witness on the concrete fixture: descendant `/A/B`'s two
entries precede ancestor `/A`'s entry, and same-state entries are in
declared order. -/
theorem c6_inheritance_order_witness :
    getTransitionsA bC6 ['X'] ['/', 'A', '/', 'B'] = some c6List ∧
    (get_transitions bC6 ['X'] ['/', 'A', '/', 'B'] = some (c6List.map stripA) ∧
      (∀ i j ei ej, c6List.get? i = some ei → c6List.get? j = some ej →
        ej.path <+: ei.path → ei.path ≠ ej.path → i < j) ∧
      (∀ i j ei ej, c6List.get? i = some ei → c6List.get? j = some ej → i < j →
        ei.path = ej.path → ei.tIdx < ej.tIdx)) :=
  ⟨by decide, c6_inheritance_order bC6 ['X'] ['/', 'A', '/', 'B'] c6List (by decide)⟩

/-! ## Claim C7 -/

/-- After a `set-state(terminal)` step no further state-change step
occurs. -/
def noStateAfterTerminal (steps : List Step) : Prop :=
  ∀ i j p, steps.get? i = some (Step.setState none) → i < j →
    steps.get? j ≠ some (Step.setState p)

/-- The two steps exiting the state at path `p`: its exit-actions then
`set-state(p)`. -/
def exitPair (B : BuilderSt) (p : List PyStr) : Option (List Step) :=
  match path_to_pointer p with
  | none => none
  | some ptr =>
    match lookupB B.statesList ptr with
    | none => none
    | some st => some [Step.runActions st.exitActions, Step.setState (some ptr)]

/-- Spec-side description of the exit phase of a final transition: exit
every state from `src` up to and including the root, innermost first. -/
def exitStepsSpec (B : BuilderSt) (sp : List PyStr) : Option (List Step) :=
  joinM ((List.range sp.length).map fun k => exitPair B (sp.take (sp.length - k)))

lemma exitLoopF_no_term (B : BuilderSt) (dp : List PyStr) :
    ∀ fuel path l, exitLoopF B dp fuel path = some l →
      ∀ s ∈ l, s ≠ Step.setState none
  | 0, path, l, h => by simp [exitLoopF] at h
  | fuel + 1, path, l, h => by
    rw [exitLoopF] at h
    by_cases hc : path = dp.take path.length
    · rw [if_pos hc] at h
      simp only [Option.some.injEq] at h
      subst h
      intro s hs
      simp at hs
    · rw [if_neg hc] at h
      cases h1 : path_to_pointer path with
      | none =>
        simp only [h1] at h
        exact absurd h (by simp)
      | some ptr =>
        simp only [h1] at h
        cases h2 : lookupB B.statesList ptr with
        | none =>
          simp only [h2] at h
          exact absurd h (by simp)
        | some st =>
          simp only [h2] at h
          cases h3 : exitLoopF B dp fuel path.dropLast with
          | none =>
            simp only [h3] at h
            exact absurd h (by simp)
          | some rest =>
            simp only [h3, Option.some.injEq] at h
            subst h
            intro s hs
            rcases List.mem_append.mp hs with hs | hs
            · rcases List.mem_cons.mp hs with hs | hs
              · subst hs
                simp
              · simp only [List.mem_singleton] at hs
                subst hs
                simp
            · exact exitLoopF_no_term B dp fuel path.dropLast rest h3 s hs

lemma exitSteps_no_term (B : BuilderSt) (src : PyStr) (dst : Option PyStr)
    (l : List Step) (h : exitSteps B src dst = some l) :
    ∀ s ∈ l, s ≠ Step.setState none := by
  unfold exitSteps at h
  by_cases hsd : some src = dst
  · rw [if_pos hsd] at h
    cases h2 : lookupB B.statesList src with
    | none =>
      simp only [h2] at h
      exact absurd h (by simp)
    | some st =>
      simp only [h2, Option.some.injEq] at h
      subst h
      intro s hs
      rcases List.mem_cons.mp hs with hs | hs
      · subst hs
        simp
      · simp only [List.mem_singleton] at hs
        subst hs
        simp
  · rw [if_neg hsd] at h
    cases h1 : pathOfPtr src with
    | none =>
      simp only [h1] at h
      exact absurd h (by simp)
    | some sp =>
      simp only [h1] at h
      cases h2 : (match dst with | none => some [] | some d => pathOfPtr d) with
      | none =>
        simp only [h2] at h
        exact absurd h (by simp)
      | some dp =>
        simp only [h2] at h
        exact exitLoopF_no_term B dp (sp.length + 1) sp l h

lemma enterChain_no_term (B : BuilderSt) :
    ∀ rest pre l, enterChain B pre rest = some l →
      ∀ s ∈ l, s ≠ Step.setState none
  | [], pre, l, h => by
    simp only [enterChain, Option.some.injEq] at h
    subst h
    intro s hs
    simp at hs
  | n :: rest', pre, l, h => by
    rw [enterChain] at h
    cases h1 : path_to_pointer (pre ++ [n]) with
    | none =>
      simp only [h1] at h
      exact absurd h (by simp)
    | some ptr =>
      simp only [h1] at h
      cases h2 : lookupB B.statesList ptr with
      | none =>
        simp only [h2] at h
        exact absurd h (by simp)
      | some st =>
        simp only [h2] at h
        cases h3 : enterChain B (pre ++ [n]) rest' with
        | none =>
          simp only [h3] at h
          exact absurd h (by simp)
        | some tail =>
          simp only [h3, Option.some.injEq] at h
          subst h
          intro s hs
          rcases List.mem_append.mp hs with hs | hs
          · rcases List.mem_cons.mp hs with hs | hs
            · subst hs
              simp
            · simp only [List.mem_singleton] at hs
              subst hs
              simp
          · exact enterChain_no_term B rest' (pre ++ [n]) tail h3 s hs

lemma enterSteps_no_term (B : BuilderSt) (src : Option PyStr) (dst : PyStr)
    (l : List Step) (h : enterSteps B src dst = some l) :
    ∀ s ∈ l, s ≠ Step.setState none := by
  unfold enterSteps at h
  by_cases hsd : src = some dst
  · rw [if_pos hsd] at h
    cases h2 : lookupB B.statesList dst with
    | none =>
      simp only [h2] at h
      exact absurd h (by simp)
    | some st =>
      simp only [h2, Option.some.injEq] at h
      subst h
      intro s hs
      rcases List.mem_cons.mp hs with hs | hs
      · subst hs
        simp
      · simp only [List.mem_singleton] at hs
        subst hs
        simp
  · rw [if_neg hsd] at h
    cases h1 : (match src with | none => some [] | some s => pathOfPtr s) with
    | none =>
      simp only [h1] at h
      exact absurd h (by simp)
    | some sp =>
      simp only [h1] at h
      cases h2 : pathOfPtr dst with
      | none =>
        simp only [h2] at h
        exact absurd h (by simp)
      | some dp =>
        simp only [h2] at h
        by_cases h3 : lcaPath sp dp = dp
        · rw [if_pos h3] at h
          cases h4 : path_to_pointer (lcaPath sp dp) with
          | none =>
            simp only [h4] at h
            exact absurd h (by simp)
          | some ptr =>
            simp only [h4, Option.some.injEq] at h
            subst h
            intro s hs
            simp only [List.mem_singleton] at hs
            subst hs
            simp
        · rw [if_neg h3] at h
          exact enterChain_no_term B (dp.drop (lcaPath sp dp).length) (lcaPath sp dp) l h

lemma stepsFor_shape (B : BuilderSt) (src : PyStr) (spath : List PyStr)
    (t : TransitionV) (steps : List Step) (h : stepsFor B src spath t = some steps) :
    (t.next = .absent ∧ steps = [Step.runActions t.actions]) ∨
    (∃ ex, nextStateF B t.next spath = some none ∧ exitSteps B src none = some ex ∧
      steps = ex ++ [Step.setState none] ++ [Step.runActions t.actions]) ∨
    (∃ p ex en, nextStateF B t.next spath = some (some p) ∧
      exitSteps B src (some p) = some ex ∧ enterSteps B (some src) p = some en ∧
      steps = ex ++ [Step.runActions t.actions] ++ en) := by
  unfold stepsFor at h
  cases hnx : t.next with
  | absent =>
    rw [hnx] at h
    simp only [Option.some.injEq] at h
    exact Or.inl ⟨rfl, h.symm⟩
  | null =>
    rw [hnx] at h
    cases h1 : nextStateF B NextF.null spath with
    | none =>
      simp only [h1] at h
      exact absurd h (by simp)
    | some dst =>
      simp only [h1] at h
      cases h2 : exitSteps B src dst with
      | none =>
        simp only [h2] at h
        exact absurd h (by simp)
      | some ex =>
        simp only [h2] at h
        cases dst with
        | none =>
          simp only [Option.some.injEq] at h
          exact Or.inr (Or.inl ⟨ex, rfl, h2, h.symm⟩)
        | some d =>
          cases h3 : enterSteps B (some src) d with
          | none =>
            simp only [h3] at h
            exact absurd h (by simp)
          | some en =>
            simp only [h3, Option.some.injEq] at h
            exact Or.inr (Or.inr ⟨d, ex, en, rfl, h2, h3, h.symm⟩)
  | ptr s =>
    rw [hnx] at h
    cases h1 : nextStateF B (NextF.ptr s) spath with
    | none =>
      simp only [h1] at h
      exact absurd h (by simp)
    | some dst =>
      simp only [h1] at h
      cases h2 : exitSteps B src dst with
      | none =>
        simp only [h2] at h
        exact absurd h (by simp)
      | some ex =>
        simp only [h2] at h
        cases dst with
        | none =>
          simp only [Option.some.injEq] at h
          exact Or.inr (Or.inl ⟨ex, rfl, h2, h.symm⟩)
        | some d =>
          cases h3 : enterSteps B (some src) d with
          | none =>
            simp only [h3] at h
            exact absurd h (by simp)
          | some en =>
            simp only [h3, Option.some.injEq] at h
            exact Or.inr (Or.inr ⟨d, ex, en, rfl, h2, h3, h.symm⟩)

lemma transLoopA_entry (B : BuilderSt) (src : PyStr) (spath : List PyStr) (ev : PyStr) :
    ∀ ts k al stop, transLoopA B src spath ev k ts = some (al, stop) →
      ∀ e ∈ al, stepsFor B src spath e.trans = some e.steps ∧ e.path = spath ∧
        e.dst = (match e.trans.next with
          | .absent => none
          | nx => nextStateF B nx spath)
  | [], k, al, stop, h => by
    simp only [transLoopA, Option.some.injEq, Prod.mk.injEq] at h
    obtain ⟨h1, _⟩ := h
    subst h1
    intro e he
    simp at he
  | t :: ts, k, al, stop, h => by
    by_cases hev : t.event = ev
    · simp only [transLoopA, if_pos hev] at h
      cases hsf : stepsFor B src spath t with
      | none =>
        simp only [hsf] at h
        exact absurd h (by simp)
      | some steps =>
        simp only [hsf] at h
        by_cases hc : (condPair t.condition).1 = none
        · rw [if_pos hc] at h
          simp only [Option.some.injEq, Prod.mk.injEq] at h
          obtain ⟨h1, _⟩ := h
          subst h1
          intro e he
          simp only [List.mem_singleton] at he
          subst he
          exact ⟨hsf, rfl, rfl⟩
        · rw [if_neg hc] at h
          cases hrec : transLoopA B src spath ev (k + 1) ts with
          | none =>
            simp only [hrec] at h
            exact absurd h (by simp)
          | some pr =>
            obtain ⟨rest, stop'⟩ := pr
            simp only [hrec, Option.some.injEq, Prod.mk.injEq] at h
            obtain ⟨h1, _⟩ := h
            subst h1
            intro e he
            rcases List.mem_cons.mp he with he | he
            · subst he
              exact ⟨hsf, rfl, rfl⟩
            · exact transLoopA_entry B src spath ev ts (k + 1) rest stop' hrec e he
    · simp only [transLoopA, if_neg hev] at h
      exact transLoopA_entry B src spath ev ts (k + 1) al stop h

lemma ancLoopAF_entry (B : BuilderSt) (src ev : PyStr) :
    ∀ fuel path al, ancLoopAF B src ev fuel path = some al →
      ∀ e ∈ al, stepsFor B src e.path e.trans = some e.steps ∧
        e.dst = (match e.trans.next with
          | .absent => none
          | nx => nextStateF B nx e.path)
  | 0, path, al, h => by
    simp [ancLoopAF] at h
  | fuel + 1, path, al, h => by
    rw [ancLoopAF] at h
    by_cases hp : path = []
    · rw [if_pos hp] at h
      simp only [Option.some.injEq] at h
      subst h
      intro e he
      simp at he
    · rw [if_neg hp] at h
      cases h1 : path_to_pointer path with
      | none =>
        simp only [h1] at h
        exact absurd h (by simp)
      | some ptr =>
        simp only [h1] at h
        cases h2 : lookupB B.statesList ptr with
        | none =>
          simp only [h2] at h
          exact absurd h (by simp)
        | some st =>
          simp only [h2] at h
          cases h3 : transLoopA B src path ev 0 st.transitions with
          | none =>
            simp only [h3] at h
            exact absurd h (by simp)
          | some pr =>
            obtain ⟨es, stop⟩ := pr
            simp only [h3] at h
            have hes : ∀ e ∈ es, stepsFor B src e.path e.trans = some e.steps ∧
                e.dst = (match e.trans.next with
                  | .absent => none
                  | nx => nextStateF B nx e.path) := by
              intro e he
              obtain ⟨hsf, hpth, hdst⟩ :=
                transLoopA_entry B src path ev st.transitions 0 es stop h3 e he
              rw [hpth]
              exact ⟨hsf, hdst⟩
            cases stop with
            | true =>
              simp only [if_true, Option.some.injEq] at h
              subst h
              exact hes
            | false =>
              simp only [Bool.false_eq_true, if_false] at h
              cases h4 : ancLoopAF B src ev fuel path.dropLast with
              | none =>
                simp only [h4] at h
                exact absurd h (by simp)
              | some rest =>
                simp only [h4, Option.some.injEq] at h
                subst h
                intro e he
                rcases List.mem_append.mp he with he | he
                · exact hes e he
                · exact ancLoopAF_entry B src ev fuel path.dropLast rest h4 e he

lemma exitLoopF_nil_eq (B : BuilderSt) :
    ∀ fuel sp, sp.length < fuel → exitLoopF B [] fuel sp = exitStepsSpec B sp
  | 0, sp, h => absurd h (by omega)
  | fuel + 1, sp, h => by
    rw [exitLoopF]
    by_cases hsp : sp = []
    · subst hsp
      simp [exitStepsSpec, joinM]
    · have hcond : ¬ (sp = List.take sp.length ([] : List PyStr)) := by
        simp [hsp]
      rw [if_neg hcond]
      obtain ⟨m, hm⟩ : ∃ m, sp.length = m + 1 :=
        ⟨sp.length - 1, by
          have := List.length_pos.mpr hsp
          omega⟩
      have hm2 : sp.dropLast.length = m := by
        rw [List.length_dropLast, hm]
        omega
      have hdl : sp.dropLast = sp.take m := by
        rw [List.dropLast_eq_take, hm]
        norm_num
      rw [exitStepsSpec, hm, List.range_succ_eq_map, List.map_cons, List.map_map]
      have hhead : sp.take (m + 1 - 0) = sp := by
        rw [Nat.sub_zero, ← hm, List.take_length]
      rw [hhead]
      have hmap : (List.range m).map
            ((fun k => exitPair B (sp.take (m + 1 - k))) ∘ Nat.succ) =
          (List.range m).map
            (fun k => exitPair B (sp.dropLast.take (sp.dropLast.length - k))) := by
        apply List.map_congr_left
        intro k hk
        simp only [Function.comp_apply]
        congr 1
        rw [hm2, hdl, List.take_take]
        rw [min_eq_left (by omega : m - k ≤ m)]
        congr 1
        omega
      rw [hmap, ← hm2, joinM_cons]
      have htail : joinM ((List.range sp.dropLast.length).map
          (fun k => exitPair B (sp.dropLast.take (sp.dropLast.length - k)))) =
            exitStepsSpec B sp.dropLast := rfl
      rw [htail, ← exitLoopF_nil_eq B fuel sp.dropLast (by omega)]
      cases h1 : path_to_pointer sp with
      | none => simp [exitPair, h1]
      | some ptr =>
        cases h2 : lookupB B.statesList ptr with
        | none => simp [exitPair, h1, h2]
        | some st =>
          simp only [exitPair, h1, h2]

lemma noStateAfterTerminal_of_no_term {steps : List Step}
    (h : ∀ s ∈ steps, s ≠ Step.setState none) : noStateAfterTerminal steps := by
  intro i j p hi _ hj
  exact h _ (List.get?_mem hi) rfl

lemma noStateAfterTerminal_terminal {ex : List Step} {acts : List PyStr}
    (hex : ∀ s ∈ ex, s ≠ Step.setState none) :
    noStateAfterTerminal (ex ++ [Step.setState none] ++ [Step.runActions acts]) := by
  intro i j p hi hij hj
  rw [List.append_assoc] at hi hj
  have hlen2 : ([Step.setState none] ++ [Step.runActions acts] : List Step).length = 2 :=
    rfl
  by_cases hilt : i < ex.length
  · rw [List.get?_append hilt] at hi
    exact hex _ (List.get?_mem hi) rfl
  · push_neg at hilt
    rw [List.get?_append_right hilt] at hi
    have hi0 : i - ex.length = 0 := by
      by_contra hne
      rcases Nat.lt_or_ge (i - ex.length) 2 with h2 | h2
      · have he1 : i - ex.length = 1 := by omega
        rw [he1] at hi
        simp at hi
      · rw [List.get?_eq_none.mpr (by rw [hlen2]; omega)] at hi
        simp at hi
    have hjge : ex.length ≤ j := by omega
    rw [List.get?_append_right hjge] at hj
    rcases Nat.lt_or_ge (j - ex.length) 2 with h2 | h2
    · have he1 : j - ex.length = 1 := by omega
      rw [he1] at hj
      simp at hj
    · rw [List.get?_eq_none.mpr (by rw [hlen2]; omega)] at hj
      simp at hj

/-- Claim C7: a planned transition whose resolved destination is terminal
has step list exactly `exit_steps(src, null)` ++ `[set-state(terminal)]`
++ `[run-actions(T.actions)]`; `exit_steps(src, null)` exits every state
from `src` up to and including the root; and in every planned step list a
`set-state(terminal)` is never followed by another state change.  The
first conjunct grounds the annotated planner in `get_transitions`. -/
theorem c7_terminal_steps (B : BuilderSt) (ev src : PyStr) (al : List AEntry)
    (h : getTransitionsA B ev src = some al) :
    get_transitions B ev src = some (al.map stripA) ∧
    (∀ e ∈ al, e.dst = some none →
      ∃ ex, exitSteps B src none = some ex ∧
        e.steps = ex ++ [Step.setState none] ++ [Step.runActions e.trans.actions]) ∧
    (∀ sp, pathOfPtr src = some sp → exitSteps B src none = exitStepsSpec B sp) ∧
    (∀ e ∈ al, noStateAfterTerminal e.steps) := by
  unfold getTransitionsA at h
  cases hp : pathOfPtr src with
  | none =>
    simp only [hp] at h
    exact absurd h (by simp)
  | some sp =>
    simp only [hp] at h
    rw [ancLoopA] at h
    have hentry := ancLoopAF_entry B src ev (sp.length + 1) sp al h
    refine ⟨?_, ?_, ?_, ?_⟩
    · unfold get_transitions ancLoop
      simp only [hp]
      rw [ancLoopAF_proj B src ev (sp.length + 1) sp, h]
      rfl
    · intro e he hterm
      obtain ⟨hsf, hdst⟩ := hentry e he
      rw [hterm] at hdst
      have hmatch : (match e.trans.next with
          | .absent => none
          | nx => nextStateF B nx e.path) = nextStateF B e.trans.next e.path := by
        cases e.trans.next <;> rfl
      rw [hmatch] at hdst
      rcases stepsFor_shape B src e.path e.trans e.steps hsf with
        ⟨hab', _⟩ | ⟨ex, _, hex, hsteps⟩ | ⟨p, exl, en, hn, _, _, _⟩
      · rw [hab'] at hdst
        simp [nextStateF] at hdst
      · exact ⟨ex, hex, hsteps⟩
      · rw [hn] at hdst
        simp at hdst
    · intro sp' hsp'
      have hsp2 : sp' = sp := (Option.some.inj hsp').symm
      rw [hsp2]
      unfold exitSteps
      rw [if_neg (by simp : ¬ (some src = (none : Option PyStr)))]
      simp only [hp]
      exact exitLoopF_nil_eq B (sp.length + 1) sp (by omega)
    · intro e he
      obtain ⟨hsf, _⟩ := hentry e he
      rcases stepsFor_shape B src e.path e.trans e.steps hsf with
        ⟨_, hsteps⟩ | ⟨ex, _, hex, hsteps⟩ | ⟨p, exl, en, _, hex, hen, hsteps⟩
      · rw [hsteps]
        apply noStateAfterTerminal_of_no_term
        intro s hs
        simp only [List.mem_singleton] at hs
        subst hs
        simp
      · rw [hsteps]
        exact noStateAfterTerminal_terminal (exitSteps_no_term B src none ex hex)
      · rw [hsteps]
        apply noStateAfterTerminal_of_no_term
        intro s hs
        rcases List.mem_append.mp hs with hs | hs
        · rcases List.mem_append.mp hs with hs | hs
          · exact exitSteps_no_term B src (some p) exl hex s hs
          · simp only [List.mem_singleton] at hs
            subst hs
            simp
        · exact enterSteps_no_term B (some src) p en hen s hs

/-- Root state `A` with exit-action `x` and a final transition on `Y`
running action `w`. -/
def stA7 : StateT :=
  .mk ['A'] none [] [['x']] [⟨['Y'], .absent, [['w']], .null⟩] []

/-- A builder state indexing only `/A` (the `stA7` fixture). -/
def bC7 : BuilderSt := ⟨[(['/', 'A'], stA7)], [['Y']], [], [['x'], ['w']], none⟩

/-- The single annotated entry planned for `(Y, /A)` on `bC7`: a terminal
transition. -/
def c7List : List AEntry :=
  [⟨[['A']], 0, ⟨['Y'], .absent, [['w']], .null⟩, some none, none, none,
    [Step.runActions [['x']], Step.setState (some ['/', 'A']),
     Step.setState none, Step.runActions [['w']]]⟩]

/-- Claim C7, witness on the concrete final transition `(Y, /A)`. -/
theorem c7_terminal_steps_witness :
    getTransitionsA bC7 ['Y'] ['/', 'A'] = some c7List ∧
    (get_transitions bC7 ['Y'] ['/', 'A'] = some (c7List.map stripA) ∧
      (∀ e ∈ c7List, e.dst = some none →
        ∃ ex, exitSteps bC7 ['/', 'A'] none = some ex ∧
          e.steps = ex ++ [Step.setState none] ++ [Step.runActions e.trans.actions]) ∧
      (∀ sp, pathOfPtr ['/', 'A'] = some sp →
        exitSteps bC7 ['/', 'A'] none = exitStepsSpec bC7 sp) ∧
      (∀ e ∈ c7List, noStateAfterTerminal e.steps)) :=
  ⟨by decide, c7_terminal_steps bC7 ['Y'] ['/', 'A'] c7List (by decide)⟩

/-! ## Claim C10 -/

/-- Decidable check: the state indexed at path `p` exists and declares no
transition on event `ev`. -/
def noMatchAt (B : BuilderSt) (ev : PyStr) (p : List PyStr) : Bool :=
  match path_to_pointer p with
  | none => false
  | some ptr =>
    match lookupB B.statesList ptr with
    | none => false
    | some st => st.transitions.all (fun t => ! decide (t.event = ev))

lemma transLoop_no_match (B : BuilderSt) (src : PyStr) (spath : List PyStr)
    (ev : PyStr) : ∀ ts, (∀ t ∈ ts, t.event ≠ ev) →
      transLoop B src spath ev ts = some ([], false)
  | [], _ => rfl
  | t :: ts, h => by
    have hev : t.event ≠ ev := h t (by simp)
    simp only [transLoop, if_neg hev]
    exact transLoop_no_match B src spath ev ts (fun t' ht' => h t' (by simp [ht']))

lemma ancLoopF_no_match (B : BuilderSt) (src ev : PyStr) :
    ∀ fuel sp, sp.length < fuel →
      (∀ k, k < sp.length → noMatchAt B ev (sp.take (k + 1)) = true) →
      ancLoopF B src ev fuel sp = some []
  | 0, sp, h, _ => absurd h (by omega)
  | fuel + 1, sp, h, hall => by
    rw [ancLoopF]
    by_cases hsp : sp = []
    · rw [if_pos hsp]
    · rw [if_neg hsp]
      have hlen : 0 < sp.length := List.length_pos.mpr hsp
      have hfull := hall (sp.length - 1) (by omega)
      rw [show sp.length - 1 + 1 = sp.length by omega, List.take_length] at hfull
      unfold noMatchAt at hfull
      cases h1 : path_to_pointer sp with
      | none =>
        rw [h1] at hfull
        simp at hfull
      | some ptr =>
        rw [h1] at hfull
        cases h2 : lookupB B.statesList ptr with
        | none =>
          simp only [h2] at hfull
          simp at hfull
        | some st =>
          simp only [h2] at hfull ⊢
          simp only [List.all_eq_true] at hfull
          have hts : ∀ t ∈ st.transitions, t.event ≠ ev := by
            intro t ht
            have := hfull t ht
            simpa using this
          simp only [transLoop_no_match B src sp ev st.transitions hts]
          have hrec : ancLoopF B src ev fuel sp.dropLast = some [] := by
            refine ancLoopF_no_match B src ev fuel sp.dropLast ?_ ?_
            · rw [List.length_dropLast]
              omega
            · intro k hk
              rw [List.length_dropLast] at hk
              have htake : sp.dropLast.take (k + 1) = sp.take (k + 1) := by
                rw [List.dropLast_eq_take, List.take_take]
                congr 1
                omega
              rw [htake]
              exact hall k (by omega)
          simp only [hrec]
          rfl

/-- Claim C10: if neither the state at `src` nor any of its ancestors
declares a transition on the given event, `get_transitions` returns the
empty list and raises no error. -/
theorem c10_no_matching_transitions (B : BuilderSt) (ev src : PyStr)
    (sp : List PyStr) (h1 : pathOfPtr src = some sp)
    (h2 : ∀ k ∈ List.range sp.length, noMatchAt B ev (sp.take (k + 1)) = true) :
    get_transitions B ev src = some [] := by
  unfold get_transitions
  simp only [h1]
  exact ancLoopF_no_match B src ev (sp.length + 1) sp (by omega)
    (fun k hk => h2 k (List.mem_range.mpr hk))

/-- Claim C10, witness: `/A` of the `bC7` fixture declares transitions
only on `Y`, so planning event `Z` yields the empty list. -/
theorem c10_no_matching_transitions_witness :
    (pathOfPtr ['/', 'A'] = some [['A']] ∧
      ∀ k ∈ List.range ([['A']] : List PyStr).length,
        noMatchAt bC7 ['Z'] (([['A']] : List PyStr).take (k + 1)) = true) ∧
    get_transitions bC7 ['Z'] ['/', 'A'] = some [] :=
  ⟨⟨by decide, by decide⟩,
    c10_no_matching_transitions bC7 ['Z'] ['/', 'A'] [['A']] (by decide) (by decide)⟩

end RskFsm
